import Mathlib

/-!
Verification of the DNA analyzer utility (`dna_analyzer.py`).

Sequences are modelled as `List Char`; the floating-point percentages as
exact rationals; the Python `Counter` as an association list kept in
insertion order; `Counter.most_common` as a stable descending sort by
count followed by truncation; Python slices (as used by `kmer_counts`)
with their index-normalisation semantics over `Int`.
-/

namespace DNA

/-- The nucleotide alphabet kept by the cleaner. -/
def nucleotides : List Char := ['A', 'C', 'G', 'T']

/-- Model of `RC_MAP = str.maketrans("ACGT", "TGCA")`: the character translation
used by `reverse_complement`; characters outside the table are unchanged. -/
def rcMap (c : Char) : Char :=
  if c = 'A' then 'T'
  else if c = 'C' then 'G'
  else if c = 'G' then 'C'
  else if c = 'T' then 'A'
  else c

/-- Embedding of `reverse_complement(seq)`, i.e. `seq.translate(RC_MAP)[::-1]`. -/
def reverse_complement (s : List Char) : List Char :=
  (s.map rcMap).reverse

/-- Embedding of `clean_seq(seq)`: uppercase, then drop every character outside
`{A,C,G,T}` (the `re.sub("[^ACGT]", "", seq)` step). -/
def clean_seq (s : List Char) : List Char :=
  (s.map Char.toUpper).filter (fun c => c ∈ nucleotides)

/-- Embedding of `gc_content(seq)`: `0.0` on the empty string, otherwise
`100.0 * (count of G + count of C) / len(seq)`, in exact rationals. -/
def gc_content (s : List Char) : Rat :=
  if s = [] then 0
  else 100 * ((s.count 'G' : Rat) + (s.count 'C' : Rat)) / (s.length : Rat)

/-- Embedding of `at_content(seq)`: `0.0` on the empty string, otherwise
`100.0 * (count of A + count of T) / len(seq)`, in exact rationals. -/
def at_content (s : List Char) : Rat :=
  if s = [] then 0
  else 100 * ((s.count 'A' : Rat) + (s.count 'T' : Rat)) / (s.length : Rat)

/-- Normalisation of one slice endpoint, as CPython does it for a
step-1 slice: a negative index is offset by the length, then the result
is clamped to `[0, n]`. -/
def sliceIdx (n : Nat) (x : Int) : Nat :=
  (max 0 (min (if x < 0 then x + n else x) (n : Int))).toNat

/-- Embedding of `s[i:j]` for integer endpoints (step 1): the characters from the
normalised start up to the normalised stop, exclusive. -/
def pySlice (s : List Char) (i j : Int) : List Char :=
  (s.take (sliceIdx s.length j)).drop (sliceIdx s.length i)

/-- Embedding of `counts[kmer] += 1` on a `Counter` held as an insertion-ordered
association list: an existing key is incremented in place, a new key is
appended with count 1. -/
def bump (t : List (List Char × Nat)) (key : List Char) : List (List Char × Nat) :=
  match t with
  | [] => [(key, 1)]
  | (k, v) :: rest => if k = key then (k, v + 1) :: rest else (k, v) :: bump rest key

/-- One iteration of the `kmer_counts` loop: slice `seq[i:i+k]` and
count it when its length equals `k`. -/
def kmerStep (s : List Char) (k : Int) (t : List (List Char × Nat)) (i : Nat) :
    List (List Char × Nat) :=
  let kmer := pySlice s (i : Int) ((i : Int) + k)
  if (kmer.length : Int) = k then bump t kmer else t

/-- Embedding of `kmer_counts(seq, k)`: for `i in range(len(seq) - k + 1)`, count the
slice `seq[i:i+k]` when its length is `k`.  `range` of a non-positive
bound is empty, hence the `Int.toNat` clamp. -/
def kmer_counts (s : List Char) (k : Int) : List (List Char × Nat) :=
  (List.range ((s.length : Int) - k + 1).toNat).foldl (kmerStep s k) []

/-- The total of all counts in a table. -/
def totalCount (t : List (List Char × Nat)) : Nat :=
  (t.map Prod.snd).sum

/-- Insert an entry into a count-descending list, after every entry of
strictly larger count and before every entry of smaller or equal count. -/
def insertByCount (x : List Char × Nat) : List (List Char × Nat) → List (List Char × Nat)
  | [] => [x]
  | y :: ys => if y.2 ≤ x.2 then x :: y :: ys else y :: insertByCount x ys

/-- Stable sort of a count table by descending count (ties keep the
table's insertion order), the order `Counter.most_common` documents. -/
def sortByCount : List (List Char × Nat) → List (List Char × Nat)
  | [] => []
  | x :: xs => insertByCount x (sortByCount xs)

/-- Embedding of `counts.most_common(n)`: the table sorted by descending count,
stably, truncated to its first `n` entries. -/
def most_common (t : List (List Char × Nat)) (n : Nat) : List (List Char × Nat) :=
  (sortByCount t).take n

/-- The whitespace characters stripped by `str.strip()` (ASCII range). -/
def isPySpace (c : Char) : Bool :=
  c = ' ' ∨ c = '\t' ∨ c = '\n' ∨ c = '\x0b' ∨ c = '\x0c' ∨ c = '\r'

/-- Embedding of `line.strip()`: remove leading and trailing whitespace. -/
def pyStrip (s : List Char) : List Char :=
  ((s.dropWhile isPySpace).reverse.dropWhile isPySpace).reverse

/-- Embedding of `line.startswith(">")` on the model. -/
def startsWithGT : List Char → Bool
  | [] => false
  | c :: _ => c = '>'

/-- Embedding of `read_sequence_from_file`, abstracted over the list of raw lines the
file yields: `lines = [line.strip() for line in f if line.strip()]`,
then FASTA header removal when the first retained line starts with
`>`, else plain concatenation. -/
def read_sequence_from_lines (raw : List (List Char)) : List Char :=
  let lines := (raw.map pyStrip).filter (fun l => l ≠ [])
  match lines with
  | [] => []
  | first :: _ =>
    if startsWithGT first then
      (lines.filter (fun l => ¬ startsWithGT l)).flatten
    else
      lines.flatten

/-- Strip of trailing whitespace only (`line.rstrip()` style), used to
state the claim's reading of the input reader literally. -/
def stripTrailing (s : List Char) : List Char :=
  (s.reverse.dropWhile isPySpace).reverse

/-- The input-reader contract exactly as the claim words it: strip only
TRAILING whitespace from each line, drop lines that are then empty,
then the same FASTA dispatch. -/
def read_sequence_claim (raw : List (List Char)) : List Char :=
  let lines := raw.filterMap (fun l =>
    let t := stripTrailing l
    if t = [] then none else some t)
  match lines with
  | [] => []
  | first :: _ =>
    if startsWithGT first then
      (lines.filter (fun l => ¬ startsWithGT l)).flatten
    else
      lines.flatten

/-- The input-reader contract with the claim's strip step amended to
remove leading and trailing whitespace, in the claim's own phrasing
(strip each line, drop the ones that are then empty, FASTA dispatch). -/
def read_sequence_amended (raw : List (List Char)) : List Char :=
  let lines := raw.filterMap (fun l =>
    let t := pyStrip l
    if t = [] then none else some t)
  match lines with
  | [] => []
  | first :: _ =>
    if startsWithGT first then
      (lines.filter (fun l => ¬ startsWithGT l)).flatten
    else
      lines.flatten

example : clean_seq "acgtACGT".toList = "ACGTACGT".toList := by decide
example : reverse_complement "ACGT".toList = "ACGT".toList := by decide
example : kmer_counts "ACGTACGT".toList 3 =
    [("ACG".toList, 2), ("CGT".toList, 2), ("GTA".toList, 1), ("TAC".toList, 1)] := by decide
example : most_common (kmer_counts "ACGTACGT".toList 3) 3 =
    [("ACG".toList, 2), ("CGT".toList, 2), ("GTA".toList, 1)] := by decide
example : kmer_counts "A".toList (-1) = [] := by decide
example : totalCount (kmer_counts "A".toList (-1)) = 0 := by decide
example : read_sequence_from_lines [">header\n".toList, "ACG\n".toList, "TT\n".toList]
    = "ACGTT".toList := by decide
example : read_sequence_from_lines [" A".toList] = "A".toList := by decide
example : read_sequence_claim [" A".toList] = " A".toList := by decide

/-! ### Helper lemmas -/

lemma rcMap_rcMap (c : Char) : rcMap (rcMap c) = c := by
  by_cases hA : c = 'A'
  · subst hA; decide
  · by_cases hC : c = 'C'
    · subst hC; decide
    · by_cases hG : c = 'G'
      · subst hG; decide
      · by_cases hT : c = 'T'
        · subst hT; decide
        · simp [rcMap, hA, hC, hG, hT]

lemma rc_involutive (s : List Char) :
    reverse_complement (reverse_complement s) = s := by
  unfold reverse_complement
  rw [List.map_reverse, List.reverse_reverse, List.map_map]
  have h : rcMap ∘ rcMap = id := funext rcMap_rcMap
  rw [h, List.map_id]

lemma clean_seq_subset (s : List Char) : ∀ c ∈ clean_seq s, c ∈ nucleotides := by
  intro c hc
  unfold clean_seq at hc
  rw [List.mem_filter] at hc
  simpa using hc.2

lemma toUpper_of_nucleotide {c : Char} (h : c ∈ nucleotides) : Char.toUpper c = c := by
  simp only [nucleotides, List.mem_cons, List.not_mem_nil, or_false] at h
  rcases h with rfl | rfl | rfl | rfl <;> decide

lemma map_id_of_fixed {f : Char → Char} :
    ∀ l : List Char, (∀ c ∈ l, f c = c) → l.map f = l
  | [], _ => rfl
  | c :: cs, h => by
    simp only [List.map_cons]
    rw [h c (by simp), map_id_of_fixed cs (fun x hx => h x (by simp [hx]))]

lemma count_nucleotides (s : List Char) (h : ∀ c ∈ s, c ∈ nucleotides) :
    s.count 'A' + s.count 'C' + s.count 'G' + s.count 'T' = s.length := by
  induction s with
  | nil => rfl
  | cons c cs ih =>
    have hc := h c (by simp)
    have ihcs := ih (fun x hx => h x (by simp [hx]))
    simp only [nucleotides, List.mem_cons, List.not_mem_nil, or_false] at hc
    rcases hc with rfl | rfl | rfl | rfl <;>
      simp [List.count_cons, List.length_cons] <;> omega

/-! ### Claim theorems: cleaning, contents, reverse complement -/

/-- C2: for every string over `{A,C,G,T}`, `reverse_complement` is an
involution (mapping `A` to `T`, `C` to `G` and reversing twice restores
the original sequence). -/
theorem C2_reverse_complement_involution (s : List Char)
    (_h : ∀ c ∈ s, c ∈ nucleotides) :
    reverse_complement (reverse_complement s) = s :=
  rc_involutive s

theorem C2_witness :
    (∀ c ∈ "ACGGT".toList, c ∈ nucleotides) ∧
    reverse_complement (reverse_complement "ACGGT".toList) = "ACGGT".toList :=
  ⟨by decide, C2_reverse_complement_involution "ACGGT".toList (by decide)⟩

/-- C3: for every non-empty string over `{A,C,G,T}`, the GC and AT
percentages computed by `gc_content` and `at_content` sum to exactly
`100` under exact rational arithmetic. -/
theorem C3_gc_at_sum (s : List Char) (hne : s ≠ [])
    (h : ∀ c ∈ s, c ∈ nucleotides) :
    gc_content s + at_content s = 100 := by
  unfold gc_content at_content
  rw [if_neg hne, if_neg hne]
  have hlen0 : s.length ≠ 0 := fun hl => hne (List.length_eq_zero.mp hl)
  have hlen : (s.length : Rat) ≠ 0 := Nat.cast_ne_zero.mpr hlen0
  have hcount := count_nucleotides s h
  field_simp
  push_cast [← hcount]
  ring

theorem C3_witness :
    ("ACT".toList ≠ ([] : List Char)) ∧
    (∀ c ∈ "ACT".toList, c ∈ nucleotides) ∧
    gc_content "ACT".toList + at_content "ACT".toList = 100 :=
  ⟨by decide, by decide, C3_gc_at_sum "ACT".toList (by decide) (by decide)⟩

/-- C6: every character of `clean_seq`'s output lies in `{A,C,G,T}`;
the cleaner returns the empty string on empty input and on input none of
whose characters uppercase into the alphabet (fully-invalid input). -/
theorem C6_clean_seq_alphabet :
    (∀ s : List Char, ∀ c ∈ clean_seq s, c ∈ nucleotides) ∧
    clean_seq [] = [] ∧
    (∀ s : List Char, (∀ c ∈ s, Char.toUpper c ∉ nucleotides) → clean_seq s = []) := by
  refine ⟨clean_seq_subset, rfl, ?_⟩
  intro s hs
  unfold clean_seq
  rw [List.filter_eq_nil_iff]
  intro a ha
  rcases List.mem_map.mp ha with ⟨c, hc, rfl⟩
  simpa using hs c hc

theorem C6_witness :
    ('A' ∈ clean_seq "a!g".toList ∧ 'A' ∈ nucleotides) ∧
    ((∀ c ∈ "1?x".toList, Char.toUpper c ∉ nucleotides) ∧ clean_seq "1?x".toList = []) :=
  ⟨⟨by decide, C6_clean_seq_alphabet.1 "a!g".toList 'A' (by decide)⟩,
   ⟨by decide, C6_clean_seq_alphabet.2.2 "1?x".toList (by decide)⟩⟩

/-- C7: `clean_seq` is idempotent: cleaning an already cleaned sequence
changes nothing. -/
theorem C7_clean_seq_idempotent (s : List Char) :
    clean_seq (clean_seq s) = clean_seq s := by
  have h1 : (clean_seq s).map Char.toUpper = clean_seq s :=
    map_id_of_fixed _ (fun c hc => toUpper_of_nucleotide (clean_seq_subset s c hc))
  have h2 : (clean_seq s).filter (fun c => c ∈ nucleotides) = clean_seq s :=
    List.filter_eq_self.mpr (fun c hc => decide_eq_true (clean_seq_subset s c hc))
  calc clean_seq (clean_seq s)
      = ((clean_seq s).map Char.toUpper).filter (fun c => c ∈ nucleotides) := rfl
    _ = (clean_seq s).filter (fun c => c ∈ nucleotides) := by rw [h1]
    _ = clean_seq s := h2

/-- C8: on the empty sequence both `gc_content` and `at_content` take
the guarded branch and return `0`, so the division by the length is
never reached with a zero denominator. -/
theorem C8_empty_contents : gc_content [] = 0 ∧ at_content [] = 0 :=
  ⟨rfl, rfl⟩

/-! ### Lemmas about the k-mer loop -/

lemma totalCount_bump (t : List (List Char × Nat)) (key : List Char) :
    totalCount (bump t key) = totalCount t + 1 := by
  induction t with
  | nil => rfl
  | cons p rest ih =>
    obtain ⟨k2, v⟩ := p
    by_cases h : k2 = key
    · simp [bump, h, totalCount]
      omega
    · simp only [bump, if_neg h]
      simp [totalCount] at ih ⊢
      omega

lemma pySlice_length_of_le (s : List Char) (i : Nat) (k : Int) (hk : 0 ≤ k)
    (hik : (i : Int) + k ≤ (s.length : Int)) :
    ((pySlice s (i : Int) ((i : Int) + k)).length : Int) = k := by
  unfold pySlice sliceIdx
  rw [if_neg (by omega), if_neg (by omega)]
  simp only [List.length_drop, List.length_take]
  omega

lemma foldl_kmerStep_total (s : List Char) (k : Int) :
    ∀ (m : Nat) (t : List (List Char × Nat)),
      (∀ i, i < m → ((pySlice s (i : Int) ((i : Int) + k)).length : Int) = k) →
      totalCount ((List.range m).foldl (kmerStep s k) t) = totalCount t + m := by
  intro m
  induction m with
  | zero => intro t _; simp
  | succ m ih =>
    intro t hall
    rw [List.range_succ, List.foldl_append]
    simp only [List.foldl_cons, List.foldl_nil]
    have hg := hall m (Nat.lt_succ_self m)
    have hstep : kmerStep s k ((List.range m).foldl (kmerStep s k) t) m
        = bump ((List.range m).foldl (kmerStep s k) t)
            (pySlice s (m : Int) ((m : Int) + k)) := by
      unfold kmerStep
      rw [if_pos hg]
    rw [hstep, totalCount_bump, ih t (fun i hi => hall i (Nat.lt_succ_of_lt hi))]
    omega

lemma foldl_kmerStep_of_neg (s : List Char) (k : Int) (hk : k < 0) :
    ∀ (is : List Nat) (t : List (List Char × Nat)),
      is.foldl (kmerStep s k) t = t := by
  intro is
  induction is with
  | nil => intro t; rfl
  | cons i rest ih =>
    intro t
    rw [List.foldl_cons]
    have hstep : kmerStep s k t i = t := by
      unfold kmerStep
      rw [if_neg (by omega)]
    rw [hstep, ih]

/-! ### Claim theorems: the k-mer loop -/

/-- C1 (amended to non-negative `k`): the counts in the table returned
by `kmer_counts s k` sum to `max 0 (len s - k + 1)` whenever `0 ≤ k`;
for negative `k` the claim fails (see the counterexample). -/
theorem C1_kmer_total (s : List Char) (k : Int) (hk : 0 ≤ k) :
    (totalCount (kmer_counts s k) : Int) = max 0 ((s.length : Int) - k + 1) := by
  unfold kmer_counts
  have hall : ∀ i, i < ((s.length : Int) - k + 1).toNat →
      ((pySlice s (i : Int) ((i : Int) + k)).length : Int) = k := by
    intro i hi
    exact pySlice_length_of_le s i k hk (by omega)
  rw [foldl_kmerStep_total s k _ [] hall]
  simp only [totalCount, List.map_nil, List.sum_nil, Nat.zero_add]
  omega

theorem C1_witness :
    ((0 : Int) ≤ 3) ∧
    (totalCount (kmer_counts "ACGTACGT".toList 3) : Int)
      = max 0 (("ACGTACGT".toList.length : Int) - 3 + 1) :=
  ⟨by decide, C1_kmer_total "ACGTACGT".toList 3 (by decide)⟩

/-- C1 as stated is false: at `s = "A"` and `k = -1` the loop runs
`len - k + 1 = 3` times but the guard `len(kmer) == k` never holds, so
the counts sum to `0`, not `max 0 (len - k + 1) = 3`. -/
theorem C1_counterexample :
    ¬ ((totalCount (kmer_counts "A".toList (-1)) : Int)
        = max 0 (("A".toList.length : Int) - (-1) + 1)) := by decide

/-- C9: whenever `k` exceeds the sequence length, `range(len - k + 1)` is
empty and `kmer_counts` returns the empty table. -/
theorem C9_kmer_empty_of_large_k (s : List Char) (k : Int)
    (h : (s.length : Int) < k) :
    kmer_counts s k = [] := by
  unfold kmer_counts
  have hz : ((s.length : Int) - k + 1).toNat = 0 := by omega
  rw [hz]
  rfl

theorem C9_witness :
    (("AC".toList.length : Int) < 5) ∧ kmer_counts "AC".toList 5 = [] :=
  ⟨by decide, C9_kmer_empty_of_large_k "AC".toList 5 (by decide)⟩

/-- C10: for negative `k` the table is empty: no slice ever has negative
length, so the `len(kmer) == k` guard never fires, even though the loop
bound `len - k + 1` is not clamped and the loop iterates that many
times. -/
theorem C10_kmer_empty_of_neg_k (s : List Char) (k : Int) (hk : k < 0) :
    kmer_counts s k = [] ∧
    (∀ i : Nat, ((pySlice s (i : Int) ((i : Int) + k)).length : Int) ≠ k) ∧
    ((((s.length : Int) - k + 1).toNat : Int) = (s.length : Int) - k + 1) := by
  refine ⟨?_, fun i => by omega, by omega⟩
  unfold kmer_counts
  exact foldl_kmerStep_of_neg s k hk _ []

theorem C10_witness :
    ((-1 : Int) < 0) ∧
    (kmer_counts "ACGT".toList (-1) = [] ∧
     (∀ i : Nat,
        ((pySlice "ACGT".toList (i : Int) ((i : Int) + (-1))).length : Int) ≠ (-1)) ∧
     (((("ACGT".toList.length : Int) - (-1) + 1).toNat : Int)
        = ("ACGT".toList.length : Int) - (-1) + 1)) :=
  ⟨by decide, C10_kmer_empty_of_neg_k "ACGT".toList (-1) (by decide)⟩

/-! ### Lemmas about the stable descending sort behind `most_common` -/

lemma length_insertByCount (x : List Char × Nat) (l : List (List Char × Nat)) :
    (insertByCount x l).length = l.length + 1 := by
  induction l with
  | nil => rfl
  | cons y ys ih =>
    by_cases h : y.2 ≤ x.2 <;> simp [insertByCount, h, ih]

lemma length_sortByCount (t : List (List Char × Nat)) :
    (sortByCount t).length = t.length := by
  induction t with
  | nil => rfl
  | cons x xs ih => simp [sortByCount, length_insertByCount, ih]

lemma perm_insertByCount (x : List Char × Nat) (l : List (List Char × Nat)) :
    List.Perm (insertByCount x l) (x :: l) := by
  induction l with
  | nil => exact List.Perm.refl _
  | cons y ys ih =>
    by_cases h : y.2 ≤ x.2
    · rw [insertByCount, if_pos h]
    · rw [insertByCount, if_neg h]
      exact List.Perm.trans (List.Perm.cons y ih) (List.Perm.swap x y ys)

lemma perm_sortByCount (t : List (List Char × Nat)) :
    List.Perm (sortByCount t) t := by
  induction t with
  | nil => exact List.Perm.refl _
  | cons x xs ih =>
    exact List.Perm.trans (perm_insertByCount x (sortByCount xs)) (List.Perm.cons x ih)

lemma pairwise_insertByCount {x : List Char × Nat} {l : List (List Char × Nat)}
    (hl : l.Pairwise (fun a b => b.2 ≤ a.2)) :
    (insertByCount x l).Pairwise (fun a b => b.2 ≤ a.2) := by
  induction l with
  | nil => simp [insertByCount]
  | cons y ys ih =>
    rcases List.pairwise_cons.mp hl with ⟨hy, hys⟩
    by_cases h : y.2 ≤ x.2
    · rw [insertByCount, if_pos h]
      refine List.pairwise_cons.mpr ⟨?_, hl⟩
      intro b hb
      rcases List.mem_cons.mp hb with rfl | hb2
      · exact h
      · exact le_trans (hy b hb2) h
    · rw [insertByCount, if_neg h]
      refine List.pairwise_cons.mpr ⟨?_, ih hys⟩
      intro b hb
      rcases List.mem_cons.mp ((perm_insertByCount x ys).mem_iff.mp hb) with rfl | hb2
      · omega
      · exact hy b hb2

lemma pairwise_sortByCount (t : List (List Char × Nat)) :
    (sortByCount t).Pairwise (fun a b => b.2 ≤ a.2) := by
  induction t with
  | nil => simp [sortByCount]
  | cons x xs ih => exact pairwise_insertByCount ih

lemma filter_insertByCount (x : List Char × Nat) (l : List (List Char × Nat))
    (c : Nat) (hl : l.Pairwise (fun a b => b.2 ≤ a.2)) :
    (insertByCount x l).filter (fun p => p.2 == c)
      = if x.2 = c then x :: l.filter (fun p => p.2 == c)
        else l.filter (fun p => p.2 == c) := by
  induction l with
  | nil => by_cases h : x.2 = c <;> simp [insertByCount, h]
  | cons y ys ih =>
    rcases List.pairwise_cons.mp hl with ⟨hy, hys⟩
    by_cases h : y.2 ≤ x.2
    · rw [insertByCount, if_pos h]
      by_cases hx : x.2 = c <;> simp [List.filter_cons, hx]
    · rw [insertByCount, if_neg h]
      rw [List.filter_cons]
      simp only [ih hys]
      by_cases hx : x.2 = c
      · have hyne : ¬ y.2 = c := by omega
        simp [List.filter_cons, hx, hyne]
      · by_cases hyc : y.2 = c <;> simp [List.filter_cons, hx, hyc]

lemma filter_sortByCount (t : List (List Char × Nat)) (c : Nat) :
    (sortByCount t).filter (fun p => p.2 == c) = t.filter (fun p => p.2 == c) := by
  induction t with
  | nil => rfl
  | cons x xs ih =>
    show (insertByCount x (sortByCount xs)).filter _ = _
    rw [filter_insertByCount x _ c (pairwise_sortByCount xs), ih]
    by_cases h : x.2 = c <;> simp [List.filter_cons, h]

/-! ### Claim theorems: `most_common` / top-N -/

/-- C5: `most_common` returns the entries of highest count — the table's
entries reordered by descending count, stably (for each count value the
entries keep their first-seen order), truncated to `n`, so all entries
are returned when fewer than `n` exist; on `"ACGTACGT"` with `k = 3`
the counts are `ACG:2, CGT:2, GTA:1, TAC:1` and the top 3 are
`ACG:2, CGT:2, GTA:1`. -/
theorem C5_top_n :
    kmer_counts "ACGTACGT".toList 3
      = [("ACG".toList, 2), ("CGT".toList, 2), ("GTA".toList, 1), ("TAC".toList, 1)] ∧
    most_common (kmer_counts "ACGTACGT".toList 3) 3
      = [("ACG".toList, 2), ("CGT".toList, 2), ("GTA".toList, 1)] ∧
    (∀ t n, (most_common t n).length = min n t.length) ∧
    (∀ t n, List.Sublist (most_common t n) (sortByCount t)) ∧
    (∀ t, List.Perm (sortByCount t) t) ∧
    (∀ t, (sortByCount t).Pairwise (fun a b => b.2 ≤ a.2)) ∧
    (∀ t c, (sortByCount t).filter (fun p => p.2 == c)
        = t.filter (fun p => p.2 == c)) := by
  refine ⟨by decide, by decide, ?_, ?_, perm_sortByCount, pairwise_sortByCount,
    filter_sortByCount⟩
  · intro t n
    simp [most_common, length_sortByCount]
  · intro t n
    exact List.take_sublist n (sortByCount t)

/-! ### Lemmas about the input reader -/

lemma filter_map_eq_filterMap (raw : List (List Char)) :
    (raw.map pyStrip).filter (fun l => l ≠ [])
      = raw.filterMap (fun l =>
          let t := pyStrip l
          if t = [] then none else some t) := by
  induction raw with
  | nil => rfl
  | cons a as ih =>
    simp only [List.map_cons, List.filter_cons, List.filterMap_cons]
    by_cases h : pyStrip a = []
    · simpa [h] using ih
    · simpa [h] using ih

/-! ### Claim theorems: the input reader -/

/-- C4 as stated is false on one line reading `" A"`: the code calls
`line.strip()`, which removes the LEADING space as well, and returns
`"A"`, while the claim's trailing-only strip would return `" A"`. -/
theorem C4_counterexample :
    read_sequence_from_lines [" A".toList] ≠ read_sequence_claim [" A".toList] := by
  decide

/-- C4 (amended: the reader strips LEADING AND trailing whitespace from
each line): it drops lines that are then empty; when the first retained
line starts with `>` it discards every retained line starting with `>`
and concatenates the rest, otherwise it concatenates all retained
lines; on the FASTA input `">header\nACG\nTT\n"` it yields
`"ACGTT"`. -/
theorem C4_reader :
    (∀ raw : List (List Char),
        read_sequence_from_lines raw = read_sequence_amended raw) ∧
    read_sequence_from_lines [">header\n".toList, "ACG\n".toList, "TT\n".toList]
      = "ACGTT".toList := by
  constructor
  · intro raw
    unfold read_sequence_from_lines read_sequence_amended
    rw [filter_map_eq_filterMap raw]
  · decide

end DNA
